import Mathlib

/-!
Verification of the email_calendar repository (src/availability.py and
src/availability2.py).

Instants (timezone-aware datetimes) are modelled as integers: all the source
code does with them is compare them, take maxima, and add durations.  The two
instants `day_start = tz.localize(datetime.combine(day, 09:00))` and
`day_end = tz.localize(datetime.combine(day, 18:00))` produced inside
`calculate_availability` by the external pytz library are abstracted into two
integer parameters; quantifying over them quantifies over every calendar day
and every timezone.  A time `t` is regarded as lying inside a span `(s, e)`
when `s ≤ t < e` (half-open), the reading under which spans can partition the
working window.
-/

namespace availability

/-- Embeds the loop of `calculate_availability` in src/availability.py
(lines 120-133).  `c` is the mutable `current_time` cursor, initially
`day_start`.  The loop body is: break when `day_end <= current_time`; append
the gap `(current_time, start)` when `current_time < start`; set
`current_time = max(current_time, end)`.  After the loop (also after a break,
where `current_time < day_end` is then false) the trailing gap
`(current_time, day_end)` is appended when `current_time < day_end`. -/
def sweepFrom : List (Int × Int) → Int → Int → List (Int × Int)
  | [], c, day_end => if c < day_end then [(c, day_end)] else []
  | (s, e) :: rest, c, day_end =>
    if day_end ≤ c then []
    else
      if c < s then (c, s) :: sweepFrom rest (max c e) day_end
      else sweepFrom rest (max c e) day_end

/-- Embeds `calculate_availability` from src/availability.py (lines 110-133):
subtract the busy intervals from the window `[day_start, day_end]` by a single
sweep, starting the cursor at `day_start`. -/
def calculate_availability (busy_intervals : List (Int × Int))
    (day_start day_end : Int) : List (Int × Int) :=
  sweepFrom busy_intervals day_start day_end


/-- A raw event as the external ics `Calendar` parser yields it to `parse_ics`
in src/availability.py: its literal begin and end instants, its duration, and
the RRULE text that `extract_rrule` recovers from the raw event string
(`none` when the event has no recurrence rule). -/
structure RawEvent where
  begin : Int
  end_ : Int
  duration : Int
  rrule_text : Option String
deriving DecidableEq

/-- Intervals one event contributes in `parse_ics` (src/availability.py lines
88-104): the base occurrence `(event.begin, event.end)` is always appended;
when an RRULE is present, `rrulestr(rrule_text, dtstart=event.begin)` is
evaluated (modelled by the oracle `rul`, which returns the occurrence
instants of the parsed rule or fails like `rrulestr` raising on malformed
text), and `rule.between(start_date, end_date, inc=True)` — the occurrences
`o` with `start_date ≤ o ≤ end_date` inclusive — each contribute
`(o, o + event.duration)`.  An `Except.error` models the exception
propagating: `parse_ics` has no try/except around `rrulestr`. -/
def eventIntervals (rul : String → Int → Except Unit (List Int))
    (start_date end_date : Int) (ev : RawEvent) :
    Except Unit (List (Int × Int)) :=
  match ev.rrule_text with
  | none => Except.ok [(ev.begin, ev.end_)]
  | some txt =>
    match rul txt ev.begin with
    | Except.error e => Except.error e
    | Except.ok occs =>
      Except.ok ((ev.begin, ev.end_) ::
        (occs.filter (fun o => start_date ≤ o && o ≤ end_date)).map
          (fun o => (o, o + ev.duration)))

/-- The event loop of `parse_ics` (src/availability.py lines 88-104): events
are processed in order and an exception raised while expanding any event's
rule propagates, aborting the loop and the surrounding function. -/
def parseLoop (rul : String → Int → Except Unit (List Int))
    (start_date end_date : Int) :
    List RawEvent → Except Unit (List (Int × Int))
  | [] => Except.ok []
  | ev :: rest =>
    match eventIntervals rul start_date end_date ev with
    | Except.error e => Except.error e
    | Except.ok blk =>
      match parseLoop rul start_date end_date rest with
      | Except.error e => Except.error e
      | Except.ok tl => Except.ok (blk ++ tl)

/-- Stable insertion by start instant, placing the new interval before the
first interval with a strictly larger start. -/
def insertByStart (x : Int × Int) : List (Int × Int) → List (Int × Int)
  | [] => [x]
  | y :: ys => if y.1 ≤ x.1 then y :: insertByStart x ys else x :: y :: ys

/-- Embeds `busy_intervals.sort(key=lambda interval: interval[0])` (line 107):
a stable sort ascending by start instant (stable sorts by the same key agree,
so insertion sort reproduces the list `list.sort` produces). -/
def sortByStart : List (Int × Int) → List (Int × Int)
  | [] => []
  | x :: xs => insertByStart x (sortByStart xs)

/-- Embeds `parse_ics` from src/availability.py (lines 70-108) after the
external `Calendar(ics_data)` parse: expand every event, then sort the
collected busy intervals by start.  The default range `[now, now + 30 days]`
is supplied by the caller of this model (datetime.now is external). -/
def parse_ics (rul : String → Int → Except Unit (List Int))
    (events : List RawEvent) (start_date end_date : Int) :
    Except Unit (List (Int × Int)) :=
  match parseLoop rul start_date end_date events with
  | Except.error e => Except.error e
  | Except.ok l => Except.ok (sortByStart l)


end availability

namespace availability2

/-- Embeds the loop of `calculate_availability` in src/availability2.py
(lines 53-66).  Identical to the version in src/availability.py except that
the break condition is `day_end <= current_time or day_end <= start`; after a
break taken because `day_end <= start` the cursor may still be before
`day_end`, in which case the trailing gap is appended. -/
def sweepFrom : List (Int × Int) → Int → Int → List (Int × Int)
  | [], c, day_end => if c < day_end then [(c, day_end)] else []
  | (s, e) :: rest, c, day_end =>
    if day_end ≤ c ∨ day_end ≤ s then (if c < day_end then [(c, day_end)] else [])
    else
      if c < s then (c, s) :: sweepFrom rest (max c e) day_end
      else sweepFrom rest (max c e) day_end

/-- Embeds `calculate_availability` from src/availability2.py (lines 43-66). -/
def calculate_availability (busy_intervals : List (Int × Int))
    (day_start day_end : Int) : List (Int × Int) :=
  sweepFrom busy_intervals day_start day_end


/-- Models `pytz.timezone` from the external pytz library: `known` says which
zone names the registry recognises.  `pytz.timezone(None)` raises
`UnknownTimeZoneError` (its body starts by raising when the argument is
`None`, and in any case a non-string argument cannot name a zone), and an
unrecognised name also raises; raising is modelled as `Except.error ()`. -/
def pytz_timezone (known : String → Bool) :
    Option String → Except Unit String
  | none => Except.error ()
  | some z => if known z then Except.ok z else Except.error ()

/-- Embeds `format_availability` from src/availability2.py (lines 68-87).
The call `tz = pytz.timezone(output_timezone)` runs unconditionally before
the loop, hence before the `if output_timezone is not None` test inside it.
The two strftime renderings of one interval are abstracted as parameters:
`lineTz` builds the converted line (using the tz object and the pretty name
of the zone) and `linePlain` the plain `HH:MM - HH:MM` line; the lines are
joined with newlines as in the source. -/
def format_availability (known : String → Bool)
    (lineTz : String → String → Int × Int → String)
    (linePlain : Int × Int → String)
    (availability : List (Int × Int)) (output_timezone : Option String) :
    Except Unit String :=
  match pytz_timezone known output_timezone with
  | Except.error e => Except.error e
  | Except.ok tz =>
    Except.ok (String.intercalate "\n" (availability.map (fun iv =>
      match output_timezone with
      | some z => lineTz tz z iv
      | none => linePlain iv)))


end availability2

/-- A list of intervals is sorted ascending by start instant (the order
`busy_intervals.sort(key=lambda interval: interval[0])` establishes). -/
def SortedByStart (l : List (Int × Int)) : Prop :=
  List.Pairwise (fun a b => a.1 ≤ b.1) l

/-- Weekday of a date given as a proleptic-Gregorian ordinal (the
representation behind Python's `datetime.date`): ordinal 1 (0001-01-01) is a
Monday and `date.weekday()` numbers Monday..Sunday as 0..6, so the weekday of
ordinal `d` is `(d + 6) % 7`. -/
def weekday (d : Nat) : Nat := (d + 6) % 7

/-- Embeds the `while len(weekdays) < count` loop of `next_weekdays`
(src/availability.py lines 158-161 and src/availability2.py lines 103-106):
`current` is `current_date` as an ordinal and `needed` is how many more dates
are still to be collected; a date is collected when `weekday < 5`
(Monday to Friday) and the walk always advances one calendar day. -/
def nwAux (current : Nat) (needed : Nat) : List Nat :=
  if needed = 0 then []
  else if weekday current < 5 then current :: nwAux (current + 1) (needed - 1)
  else nwAux (current + 1) needed
termination_by needed * 7 + (7 - weekday current) % 7
decreasing_by
  · simp only [weekday] at *
    omega
  · simp only [weekday] at *
    omega

/-- Embeds `next_weekdays` from src/availability.py (lines 144-163) and
src/availability2.py (lines 89-108); the `datetime.now().date()` default for
`start_date` is external and supplied by the caller. -/
def next_weekdays (start_date : Nat) (count : Nat) : List Nat :=
  nwAux start_date count

/-- A recurrence-rule oracle that fails on every rule text, as `rrulestr`
does on malformed text. -/
def rulAlwaysFails : String → Int → Except Unit (List Int) :=
  fun _ _ => Except.error ()

/-- A recurrence-rule oracle whose rules generate the anchor instant and one
occurrence a week later. -/
def rulWeekly : String → Int → Except Unit (List Int) :=
  fun _ d => Except.ok [d, d + 7]

/-- An event without a recurrence rule. -/
def evPlain : availability.RawEvent := ⟨0, 1, 1, none⟩

/-- An event whose recurrence-rule text is malformed for `rulAlwaysFails`. -/
def evMalformed : availability.RawEvent := ⟨2, 3, 1, some "FREQ=WEEKLY;BYDAY=XX"⟩

/-- A weekly event whose rule regenerates the anchor instant. -/
def evWeekly : availability.RawEvent := ⟨0, 5, 5, some "FREQ=WEEKLY"⟩

namespace availability

theorem mem_sweepFrom_lower (busy : List (Int × Int)) :
    ∀ c de iv, iv ∈ sweepFrom busy c de → c ≤ iv.1 := by
  induction busy with
  | nil =>
    intro c de iv h
    simp only [sweepFrom] at h
    split at h
    · rw [List.mem_singleton] at h; subst h; exact le_refl c
    · simp at h
  | cons p rest ih =>
    obtain ⟨s, e⟩ := p
    intro c de iv h
    simp only [sweepFrom] at h
    split at h
    · simp at h
    · split at h
      · rcases List.mem_cons.mp h with h1 | h2
        · subst h1; exact le_refl c
        · exact le_trans (le_max_left c e) (ih (max c e) de iv h2)
      · exact le_trans (le_max_left c e) (ih (max c e) de iv h)

theorem mem_sweepFrom_nonempty (busy : List (Int × Int)) :
    ∀ c de iv, iv ∈ sweepFrom busy c de → iv.1 < iv.2 := by
  induction busy with
  | nil =>
    intro c de iv h
    simp only [sweepFrom] at h
    split at h
    · rw [List.mem_singleton] at h; subst h; assumption
    · simp at h
  | cons p rest ih =>
    obtain ⟨s, e⟩ := p
    intro c de iv h
    simp only [sweepFrom] at h
    split at h
    · simp at h
    · split at h
      · rcases List.mem_cons.mp h with h1 | h2
        · subst h1; assumption
        · exact ih (max c e) de iv h2
      · exact ih (max c e) de iv h

theorem mem_sweepFrom_upper (busy : List (Int × Int)) :
    ∀ c de iv, (∀ p ∈ busy, p.1 ≤ de) → iv ∈ sweepFrom busy c de →
      iv.2 ≤ de := by
  induction busy with
  | nil =>
    intro c de iv _ h
    simp only [sweepFrom] at h
    split at h
    · rw [List.mem_singleton] at h; subst h; exact le_refl de
    · simp at h
  | cons p rest ih =>
    obtain ⟨s, e⟩ := p
    intro c de iv hstart h
    simp only [sweepFrom] at h
    split at h
    · simp at h
    · split at h
      · rcases List.mem_cons.mp h with h1 | h2
        · subst h1
          exact hstart (s, e) (List.mem_cons_self _ _)
        · exact ih (max c e) de iv
            (fun p hp => hstart p (List.mem_cons_of_mem _ hp)) h2
      · exact ih (max c e) de iv
          (fun p hp => hstart p (List.mem_cons_of_mem _ hp)) h

theorem sweepFrom_cover (busy : List (Int × Int)) :
    ∀ c de t, c ≤ t → t < de →
      (∃ iv ∈ sweepFrom busy c de, iv.1 ≤ t ∧ t < iv.2) ∨
      (∃ p ∈ busy, p.1 ≤ t ∧ t < p.2) := by
  induction busy with
  | nil =>
    intro c de t hct htd
    left
    refine ⟨(c, de), ?_, hct, htd⟩
    simp only [sweepFrom]
    rw [if_pos (lt_of_le_of_lt hct htd)]
    exact List.mem_singleton.mpr rfl
  | cons p rest ih =>
    obtain ⟨s, e⟩ := p
    intro c de t hct htd
    simp only [sweepFrom]
    by_cases hb : de ≤ c
    · omega
    rw [if_neg hb]
    by_cases hgap : c < s
    · rw [if_pos hgap]
      by_cases hts : t < s
      · exact Or.inl ⟨(c, s), List.mem_cons_self _ _, hct, hts⟩
      · push_neg at hts
        by_cases hte : t < e
        · exact Or.inr ⟨(s, e), List.mem_cons_self _ _, hts, hte⟩
        · push_neg at hte
          rcases ih (max c e) de t (max_le hct hte) htd with
            ⟨iv, hiv, hmem⟩ | ⟨q, hq, hmem⟩
          · exact Or.inl ⟨iv, List.mem_cons_of_mem _ hiv, hmem⟩
          · exact Or.inr ⟨q, List.mem_cons_of_mem _ hq, hmem⟩
    · rw [if_neg hgap]
      push_neg at hgap
      by_cases hte : t < e
      · exact Or.inr ⟨(s, e), List.mem_cons_self _ _, le_trans hgap hct, hte⟩
      · push_neg at hte
        rcases ih (max c e) de t (max_le hct hte) htd with
          ⟨iv, hiv, hmem⟩ | ⟨q, hq, hmem⟩
        · exact Or.inl ⟨iv, hiv, hmem⟩
        · exact Or.inr ⟨q, List.mem_cons_of_mem _ hq, hmem⟩

theorem sweepFrom_disjoint (busy : List (Int × Int)) :
    ∀ c de iv p, SortedByStart busy → iv ∈ sweepFrom busy c de → p ∈ busy →
      iv.2 ≤ p.1 ∨ p.2 ≤ iv.1 := by
  induction busy with
  | nil => intro c de iv p _ _ hp; simp at hp
  | cons q rest ih =>
    obtain ⟨s, e⟩ := q
    intro c de iv p hsort hiv hp
    rw [SortedByStart, List.pairwise_cons] at hsort
    obtain ⟨hhead, htail⟩ := hsort
    simp only [sweepFrom] at hiv
    split at hiv
    · simp at hiv
    · split at hiv
      · rcases List.mem_cons.mp hiv with h1 | h2
        · subst h1
          left
          rcases List.mem_cons.mp hp with hp1 | hp2
          · subst hp1; exact le_refl s
          · exact hhead p hp2
        · rcases List.mem_cons.mp hp with hp1 | hp2
          · subst hp1
            right
            exact le_trans (le_max_right c e)
              (mem_sweepFrom_lower rest (max c e) de iv h2)
          · exact ih (max c e) de iv p htail h2 hp2
      · rcases List.mem_cons.mp hp with hp1 | hp2
        · subst hp1
          right
          exact le_trans (le_max_right c e)
            (mem_sweepFrom_lower rest (max c e) de iv hiv)
        · exact ih (max c e) de iv p htail hiv hp2

theorem sweepFrom_chain (busy : List (Int × Int)) :
    ∀ c de, (∀ p ∈ busy, p.1 ≤ p.2) →
      List.Chain' (fun a b => a.2 ≤ b.1) (sweepFrom busy c de) := by
  induction busy with
  | nil =>
    intro c de _
    simp only [sweepFrom]
    split
    · exact List.chain'_singleton _
    · exact List.chain'_nil
  | cons p rest ih =>
    obtain ⟨s, e⟩ := p
    intro c de hwf
    simp only [sweepFrom]
    split
    · exact List.chain'_nil
    · have htail : ∀ q ∈ rest, q.1 ≤ q.2 :=
        fun q hq => hwf q (List.mem_cons_of_mem _ hq)
      split
      · refine List.chain'_cons'.mpr ⟨?_, ih (max c e) de htail⟩
        intro iv hiv
        have h1 := mem_sweepFrom_lower rest (max c e) de iv
          (List.mem_of_mem_head? hiv)
        have h2 : s ≤ e := hwf (s, e) (List.mem_cons_self _ _)
        have h3 : e ≤ max c e := le_max_right c e
        simp only
        omega
      · exact ih (max c e) de htail


theorem insertByStart_perm (x : Int × Int) (l : List (Int × Int)) :
    List.Perm (insertByStart x l) (x :: l) := by
  induction l with
  | nil => exact List.Perm.refl _
  | cons y ys ih =>
    simp only [insertByStart]
    split
    · exact List.Perm.trans (List.Perm.cons y ih) (List.Perm.swap x y ys)
    · exact List.Perm.refl _

theorem sortByStart_perm (l : List (Int × Int)) :
    List.Perm (sortByStart l) l := by
  induction l with
  | nil => exact List.Perm.refl _
  | cons x xs ih =>
    exact List.Perm.trans (insertByStart_perm x (sortByStart xs))
      (List.Perm.cons x ih)

theorem parseLoop_ok_block (rul : String → Int → Except Unit (List Int))
    (start_date end_date : Int) (events : List RawEvent) :
    ∀ l, parseLoop rul start_date end_date events = Except.ok l →
      ∀ ev ∈ events, ∃ blk,
        eventIntervals rul start_date end_date ev = Except.ok blk ∧
        List.Sublist blk l := by
  induction events with
  | nil => intro l _ ev hev; simp at hev
  | cons ev' rest ih =>
    intro l hl ev hev
    simp only [parseLoop] at hl
    cases hblk : eventIntervals rul start_date end_date ev' with
    | error e => rw [hblk] at hl; exact absurd hl (by simp)
    | ok blk' =>
      rw [hblk] at hl
      cases htl : parseLoop rul start_date end_date rest with
      | error e => rw [htl] at hl; exact absurd hl (by simp)
      | ok tl =>
        rw [htl] at hl
        have hl' : blk' ++ tl = l := by
          injection hl
        subst hl'
        rcases List.mem_cons.mp hev with h1 | h2
        · subst h1
          exact ⟨blk', hblk, List.sublist_append_left blk' tl⟩
        · obtain ⟨blk, hblk2, hsub⟩ := ih tl htl ev h2
          exact ⟨blk, hblk2, hsub.trans (List.sublist_append_right blk' tl)⟩

theorem parseLoop_error_of_bad_rule
    (rul : String → Int → Except Unit (List Int))
    (start_date end_date : Int) (events : List RawEvent) (ev : RawEvent)
    (txt : String) (hev : ev ∈ events) (htxt : ev.rrule_text = some txt)
    (herr : rul txt ev.begin = Except.error ()) :
    parseLoop rul start_date end_date events = Except.error () := by
  induction events with
  | nil => simp at hev
  | cons ev' rest ih =>
    simp only [parseLoop]
    rcases List.mem_cons.mp hev with h1 | h2
    · subst h1
      have : eventIntervals rul start_date end_date ev = Except.error () := by
        simp only [eventIntervals, htxt, herr]
      rw [this]
    · cases hblk : eventIntervals rul start_date end_date ev' with
      | error e => cases e; rfl
      | ok blk => rw [ih h2]


theorem eventIntervals_base (rul : String → Int → Except Unit (List Int))
    (start_date end_date : Int) (ev : RawEvent) (blk : List (Int × Int))
    (h : eventIntervals rul start_date end_date ev = Except.ok blk) :
    (ev.begin, ev.end_) ∈ blk := by
  unfold eventIntervals at h
  cases hr : ev.rrule_text with
  | none =>
    simp only [hr] at h
    injection h with h'
    subst h'
    exact List.mem_singleton.mpr rfl
  | some txt =>
    simp only [hr] at h
    cases hoc : rul txt ev.begin with
    | error e => simp only [hoc] at h; exact absurd h (by simp)
    | ok occs =>
      simp only [hoc] at h
      injection h with h'
      subst h'
      exact List.mem_cons_self _ _

theorem eventIntervals_occ (rul : String → Int → Except Unit (List Int))
    (start_date end_date : Int) (ev : RawEvent) (blk : List (Int × Int))
    (txt : String) (occs : List Int)
    (h : eventIntervals rul start_date end_date ev = Except.ok blk)
    (htxt : ev.rrule_text = some txt)
    (hoc : rul txt ev.begin = Except.ok occs)
    (o : Int) (ho : o ∈ occs) (h1 : start_date ≤ o) (h2 : o ≤ end_date) :
    (o, o + ev.duration) ∈ blk := by
  unfold eventIntervals at h
  simp only [htxt, hoc] at h
  injection h with h'
  subst h'
  refine List.mem_cons_of_mem _ (List.mem_map.mpr ⟨o, ?_, rfl⟩)
  exact List.mem_filter.mpr ⟨ho, by simp [h1, h2]⟩

theorem eventIntervals_dup (rul : String → Int → Except Unit (List Int))
    (start_date end_date : Int) (ev : RawEvent) (blk : List (Int × Int))
    (txt : String) (occs : List Int)
    (h : eventIntervals rul start_date end_date ev = Except.ok blk)
    (htxt : ev.rrule_text = some txt)
    (hoc : rul txt ev.begin = Except.ok occs)
    (hmem : ev.begin ∈ occs) (h1 : start_date ≤ ev.begin)
    (h2 : ev.begin ≤ end_date) (hend : ev.end_ = ev.begin + ev.duration) :
    2 ≤ blk.count (ev.begin, ev.end_) := by
  unfold eventIntervals at h
  simp only [htxt, hoc] at h
  injection h with h'
  subst h'
  have hin : (ev.begin, ev.end_) ∈
      (occs.filter (fun o => start_date ≤ o && o ≤ end_date)).map
        (fun o => (o, o + ev.duration)) := by
    refine List.mem_map.mpr ⟨ev.begin, ?_, by rw [hend]⟩
    exact List.mem_filter.mpr ⟨hmem, by simp [h1, h2]⟩
  rw [List.count_cons_self]
  have := List.count_pos_iff.mpr hin
  omega


end availability

namespace availability2

theorem mem_sweepFrom_lower2 (busy : List (Int × Int)) :
    ∀ c de iv, iv ∈ sweepFrom busy c de → c ≤ iv.1 := by
  induction busy with
  | nil =>
    intro c de iv h
    simp only [sweepFrom] at h
    split at h
    · rw [List.mem_singleton] at h; subst h; exact le_refl c
    · simp at h
  | cons p rest ih =>
    obtain ⟨s, e⟩ := p
    intro c de iv h
    simp only [sweepFrom] at h
    split at h
    · split at h
      · rw [List.mem_singleton] at h; subst h; exact le_refl c
      · simp at h
    · split at h
      · rcases List.mem_cons.mp h with h1 | h2
        · subst h1; exact le_refl c
        · exact le_trans (le_max_left c e) (ih (max c e) de iv h2)
      · exact le_trans (le_max_left c e) (ih (max c e) de iv h)

theorem mem_sweepFrom_nonempty2 (busy : List (Int × Int)) :
    ∀ c de iv, iv ∈ sweepFrom busy c de → iv.1 < iv.2 := by
  induction busy with
  | nil =>
    intro c de iv h
    simp only [sweepFrom] at h
    split at h
    · rw [List.mem_singleton] at h; subst h; assumption
    · simp at h
  | cons p rest ih =>
    obtain ⟨s, e⟩ := p
    intro c de iv h
    simp only [sweepFrom] at h
    split at h
    · split at h
      · rw [List.mem_singleton] at h; subst h; assumption
      · simp at h
    · split at h
      · rcases List.mem_cons.mp h with h1 | h2
        · subst h1; assumption
        · exact ih (max c e) de iv h2
      · exact ih (max c e) de iv h

theorem mem_sweepFrom_upper2 (busy : List (Int × Int)) :
    ∀ c de iv, iv ∈ sweepFrom busy c de → iv.2 ≤ de := by
  induction busy with
  | nil =>
    intro c de iv h
    simp only [sweepFrom] at h
    split at h
    · rw [List.mem_singleton] at h; subst h; exact le_refl de
    · simp at h
  | cons p rest ih =>
    obtain ⟨s, e⟩ := p
    intro c de iv h
    simp only [sweepFrom] at h
    split at h
    · split at h
      · rw [List.mem_singleton] at h; subst h; exact le_refl de
      · simp at h
    · rename_i hbreak
      push_neg at hbreak
      split at h
      · rcases List.mem_cons.mp h with h1 | h2
        · subst h1; exact le_of_lt hbreak.2
        · exact ih (max c e) de iv h2
      · exact ih (max c e) de iv h

theorem sweepFrom_cover2 (busy : List (Int × Int)) :
    ∀ c de t, c ≤ t → t < de →
      (∃ iv ∈ sweepFrom busy c de, iv.1 ≤ t ∧ t < iv.2) ∨
      (∃ p ∈ busy, p.1 ≤ t ∧ t < p.2) := by
  induction busy with
  | nil =>
    intro c de t hct htd
    left
    refine ⟨(c, de), ?_, hct, htd⟩
    simp only [sweepFrom]
    rw [if_pos (lt_of_le_of_lt hct htd)]
    exact List.mem_singleton.mpr rfl
  | cons p rest ih =>
    obtain ⟨s, e⟩ := p
    intro c de t hct htd
    simp only [sweepFrom]
    by_cases hb : de ≤ c ∨ de ≤ s
    · rw [if_pos hb]
      rw [if_pos (lt_of_le_of_lt hct htd)]
      exact Or.inl ⟨(c, de), List.mem_singleton.mpr rfl, hct, htd⟩
    rw [if_neg hb]
    by_cases hgap : c < s
    · rw [if_pos hgap]
      by_cases hts : t < s
      · exact Or.inl ⟨(c, s), List.mem_cons_self _ _, hct, hts⟩
      · push_neg at hts
        by_cases hte : t < e
        · exact Or.inr ⟨(s, e), List.mem_cons_self _ _, hts, hte⟩
        · push_neg at hte
          rcases ih (max c e) de t (max_le hct hte) htd with
            ⟨iv, hiv, hmem⟩ | ⟨q, hq, hmem⟩
          · exact Or.inl ⟨iv, List.mem_cons_of_mem _ hiv, hmem⟩
          · exact Or.inr ⟨q, List.mem_cons_of_mem _ hq, hmem⟩
    · rw [if_neg hgap]
      push_neg at hgap
      by_cases hte : t < e
      · exact Or.inr ⟨(s, e), List.mem_cons_self _ _, le_trans hgap hct, hte⟩
      · push_neg at hte
        rcases ih (max c e) de t (max_le hct hte) htd with
          ⟨iv, hiv, hmem⟩ | ⟨q, hq, hmem⟩
        · exact Or.inl ⟨iv, hiv, hmem⟩
        · exact Or.inr ⟨q, List.mem_cons_of_mem _ hq, hmem⟩

theorem sweepFrom_disjoint2 (busy : List (Int × Int)) :
    ∀ c de iv p, SortedByStart busy → iv ∈ sweepFrom busy c de → p ∈ busy →
      iv.2 ≤ p.1 ∨ p.2 ≤ iv.1 := by
  induction busy with
  | nil => intro c de iv p _ _ hp; simp at hp
  | cons q rest ih =>
    obtain ⟨s, e⟩ := q
    intro c de iv p hsort hiv hp
    rw [SortedByStart, List.pairwise_cons] at hsort
    obtain ⟨hhead, htail⟩ := hsort
    simp only [sweepFrom] at hiv
    split at hiv
    · rename_i hbreak
      split at hiv
      · rw [List.mem_singleton] at hiv
        subst hiv
        rename_i hcde
        have hdes : de ≤ s := by
          rcases hbreak with h | h
          · omega
          · exact h
        left
        rcases List.mem_cons.mp hp with hp1 | hp2
        · subst hp1; exact hdes
        · exact le_trans hdes (hhead p hp2)
      · simp at hiv
    · split at hiv
      · rcases List.mem_cons.mp hiv with h1 | h2
        · subst h1
          left
          rcases List.mem_cons.mp hp with hp1 | hp2
          · subst hp1; exact le_refl s
          · exact hhead p hp2
        · rcases List.mem_cons.mp hp with hp1 | hp2
          · subst hp1
            right
            exact le_trans (le_max_right c e)
              (mem_sweepFrom_lower2 rest (max c e) de iv h2)
          · exact ih (max c e) de iv p htail h2 hp2
      · rcases List.mem_cons.mp hp with hp1 | hp2
        · subst hp1
          right
          exact le_trans (le_max_right c e)
            (mem_sweepFrom_lower2 rest (max c e) de iv hiv)
        · exact ih (max c e) de iv p htail hiv hp2

theorem sweepFrom_chain2 (busy : List (Int × Int)) :
    ∀ c de, (∀ p ∈ busy, p.1 ≤ p.2) →
      List.Chain' (fun a b => a.2 ≤ b.1) (sweepFrom busy c de) := by
  induction busy with
  | nil =>
    intro c de _
    simp only [sweepFrom]
    split
    · exact List.chain'_singleton _
    · exact List.chain'_nil
  | cons p rest ih =>
    obtain ⟨s, e⟩ := p
    intro c de hwf
    simp only [sweepFrom]
    split
    · split
      · exact List.chain'_singleton _
      · exact List.chain'_nil
    · have htail : ∀ q ∈ rest, q.1 ≤ q.2 :=
        fun q hq => hwf q (List.mem_cons_of_mem _ hq)
      split
      · refine List.chain'_cons'.mpr ⟨?_, ih (max c e) de htail⟩
        intro iv hiv
        have h1 := mem_sweepFrom_lower2 rest (max c e) de iv
          (List.mem_of_mem_head? hiv)
        have h2 : s ≤ e := hwf (s, e) (List.mem_cons_self _ _)
        have h3 : e ≤ max c e := le_max_right c e
        simp only
        omega
      · exact ih (max c e) de htail

theorem sweepFrom_append_after (rest : List (Int × Int)) :
    ∀ (busy : List (Int × Int)) (c de : Int), (∀ p ∈ rest, de ≤ p.1) →
      sweepFrom (busy ++ rest) c de = sweepFrom busy c de := by
  intro busy
  induction busy with
  | nil =>
    intro c de hrest
    cases rest with
    | nil => rfl
    | cons r rs =>
      simp only [List.nil_append, sweepFrom]
      rw [if_pos (Or.inr (hrest r (List.mem_cons_self _ _)))]
  | cons p busy' ih =>
    obtain ⟨s, e⟩ := p
    intro c de hrest
    simp only [List.cons_append, sweepFrom, List.append_eq]
    split
    · rfl
    · split
      · rw [ih (max c e) de hrest]
      · exact ih (max c e) de hrest


end availability2

/-- The two sweeps compute identical results whenever every busy start is
strictly before `day_end`: the extra break condition of src/availability2.py
then never fires. -/
theorem sweepFrom_eq_of_starts_lt (busy : List (Int × Int)) :
    ∀ c de, (∀ p ∈ busy, p.1 < de) →
      availability.sweepFrom busy c de = availability2.sweepFrom busy c de := by
  induction busy with
  | nil => intro c de _; rfl
  | cons p rest ih =>
    obtain ⟨s, e⟩ := p
    intro c de hlt
    have hs : s < de := hlt (s, e) (List.mem_cons_self _ _)
    have htail : ∀ q ∈ rest, q.1 < de :=
      fun q hq => hlt q (List.mem_cons_of_mem _ hq)
    simp only [availability.sweepFrom, availability2.sweepFrom]
    by_cases hc : de ≤ c
    · rw [if_pos hc, if_pos (Or.inl hc), if_neg (not_lt.mpr hc)]
    · have hnb : ¬(de ≤ c ∨ de ≤ s) := by
        intro h
        rcases h with h | h
        · exact hc h
        · exact absurd h (not_le.mpr hs)
      rw [if_neg hc, if_neg hnb]
      split
      · rw [ih (max c e) de htail]
      · exact ih (max c e) de htail


theorem nwAux_length (current needed : Nat) :
    (nwAux current needed).length = needed := by
  induction current, needed using nwAux.induct with
  | case1 current =>
    rw [nwAux, if_pos rfl]
    rfl
  | case2 current needed h hw ih =>
    rw [nwAux, if_neg h, if_pos hw]
    simp only [List.length_cons, ih]
    omega
  | case3 current needed h hw ih =>
    rw [nwAux, if_neg h, if_neg hw]
    exact ih

theorem nwAux_mem (current needed : Nat) :
    ∀ d ∈ nwAux current needed, weekday d < 5 ∧ current ≤ d := by
  induction current, needed using nwAux.induct with
  | case1 current =>
    rw [nwAux, if_pos rfl]
    intro d hd
    simp at hd
  | case2 current needed h hw ih =>
    rw [nwAux, if_neg h, if_pos hw]
    intro d hd
    rcases List.mem_cons.mp hd with h1 | h2
    · subst h1; exact ⟨hw, le_refl d⟩
    · obtain ⟨w, hle⟩ := ih d h2
      exact ⟨w, by omega⟩
  | case3 current needed h hw ih =>
    rw [nwAux, if_neg h, if_neg hw]
    intro d hd
    obtain ⟨w, hle⟩ := ih d hd
    exact ⟨w, by omega⟩

theorem nwAux_chain (current needed : Nat) :
    List.Chain' (· < ·) (nwAux current needed) := by
  induction current, needed using nwAux.induct with
  | case1 current =>
    rw [nwAux, if_pos rfl]
    exact List.chain'_nil
  | case2 current needed h hw ih =>
    rw [nwAux, if_neg h, if_pos hw]
    refine List.chain'_cons'.mpr ⟨?_, ih⟩
    intro d hd
    have := (nwAux_mem (current + 1) (needed - 1) d
      (List.mem_of_mem_head? hd)).2
    omega
  | case3 current needed h hw ih =>
    rw [nwAux, if_neg h, if_neg hw]
    exact ih

theorem nwAux_head (current needed : Nat) :
    0 < needed → ∃ d, (nwAux current needed).head? = some d ∧ current ≤ d ∧
      weekday d < 5 ∧ ∀ e, current ≤ e → weekday e < 5 → d ≤ e := by
  induction current, needed using nwAux.induct with
  | case1 current =>
    intro hpos
    exact absurd hpos (lt_irrefl 0)
  | case2 current needed h hw ih =>
    intro hpos
    rw [nwAux, if_neg h, if_pos hw]
    exact ⟨current, rfl, le_refl current, hw, fun e he _ => he⟩
  | case3 current needed h hw ih =>
    intro hpos
    rw [nwAux, if_neg h, if_neg hw]
    obtain ⟨d, hhead, hle, hwd, hmin⟩ := ih hpos
    refine ⟨d, hhead, by omega, hwd, ?_⟩
    intro e he hwe
    have hne : e ≠ current := by
      intro hce
      subst hce
      exact hw hwe
    exact hmin e (by omega) hwe


example : next_weekdays 1 7 = [1, 2, 3, 4, 5, 8, 9] := by
  simp [next_weekdays, nwAux, weekday]

theorem count_eq_of_perm {α : Type} [BEq α] {l1 l2 : List α}
    (h : List.Perm l1 l2) (a : α) : l1.count a = l2.count a := by
  simp only [List.count]
  exact h.countP_eq _

/-- C1, counterexample: the claim is false for `calculate_availability` in
src/availability.py.  The sorted busy list `[(20, 21)]` lies entirely after
`day_end = 18`; the loop does not break on it, appends the gap `(9, 20)`,
and that returned interval ends after `day_end`, outside
`[day_start, day_end] = [9, 18]`. -/
theorem claim_C1_counterexample :
    SortedByStart [((20 : Int), 21)] ∧
    ¬ (∀ iv ∈ availability.calculate_availability [((20 : Int), 21)] 9 18,
        9 ≤ iv.1 ∧ iv.2 ≤ 18) := by
  constructor
  · simp [SortedByStart]
  · decide

/-- C1 (amended): for every busy-interval list sorted ascending by start in
which every interval's start is at most `day_end`, every interval returned by
`calculate_availability` — in src/availability.py and in
src/availability2.py — lies within `[day_start, day_end]` (for the
src/availability2.py version the bound on the starts is not even needed). -/
theorem claim_C1_amended (busy : List (Int × Int)) (day_start day_end : Int)
    (hsorted : SortedByStart busy)
    (hstarts : ∀ p ∈ busy, p.1 ≤ day_end) :
    (∀ iv ∈ availability.calculate_availability busy day_start day_end,
        day_start ≤ iv.1 ∧ iv.2 ≤ day_end) ∧
    (∀ iv ∈ availability2.calculate_availability busy day_start day_end,
        day_start ≤ iv.1 ∧ iv.2 ≤ day_end) :=
  ⟨fun iv hiv =>
    ⟨availability.mem_sweepFrom_lower busy day_start day_end iv hiv,
     availability.mem_sweepFrom_upper busy day_start day_end iv hstarts hiv⟩,
   fun iv hiv =>
    ⟨availability2.mem_sweepFrom_lower2 busy day_start day_end iv hiv,
     availability2.mem_sweepFrom_upper2 busy day_start day_end iv hiv⟩⟩

/-- C1, witness: the amended containment at the busy list `[(10, 11)]` and
window `[9, 18]`. -/
theorem claim_C1_witness :
    (∀ iv ∈ availability.calculate_availability [((10 : Int), 11)] 9 18,
        9 ≤ iv.1 ∧ iv.2 ≤ 18) ∧
    (∀ iv ∈ availability2.calculate_availability [((10 : Int), 11)] 9 18,
        9 ≤ iv.1 ∧ iv.2 ≤ 18) :=
  claim_C1_amended [(10, 11)] 9 18 (by simp [SortedByStart]) (by decide)

/-- C2, counterexample: the claim is false for `calculate_availability` in
src/availability.py, whose loop breaks only on `day_end <= current_time`.
The busy interval `(20, 21)` lies entirely at or after `day_end = 18`
(`18 ≤ 20`), yet it does contribute: with it the result is `[(9, 20)]`
instead of the `[(9, 18)]` computed without it. -/
theorem claim_C2_counterexample :
    (18 : Int) ≤ 20 ∧
    availability.calculate_availability [((20 : Int), 21)] 9 18 = [(9, 20)] ∧
    availability.calculate_availability [] 9 18 = [(9, 18)] := by decide

/-- C2 (amended): in src/availability2.py the sweep breaks as soon as
`day_end <= current_time` or `day_end <= start`, so appending any busy
intervals whose starts are at or past `day_end` leaves the result unchanged —
they never contribute.  In src/availability.py the loop breaks only on
`day_end <= current_time`, and a busy interval at or after `day_end` can
contribute (see the counterexample). -/
theorem claim_C2_amended (busy rest : List (Int × Int))
    (day_start day_end : Int) (hrest : ∀ p ∈ rest, day_end ≤ p.1) :
    availability2.calculate_availability (busy ++ rest) day_start day_end =
      availability2.calculate_availability busy day_start day_end :=
  availability2.sweepFrom_append_after rest busy day_start day_end hrest

/-- C2, witness: appending the after-window interval `(20, 21)` to the busy
list `[(10, 11)]` does not change the src/availability2.py result. -/
theorem claim_C2_witness :
    availability2.calculate_availability ([((10 : Int), 11)] ++ [(20, 21)])
        9 18 =
      availability2.calculate_availability [((10 : Int), 11)] 9 18 :=
  claim_C2_amended [(10, 11)] [(20, 21)] 9 18 (by decide)

/-- C3, counterexample: the claim is false.  `parse_ics` in
src/availability.py has no try/except around `rrulestr`, so when the second
event's rule text is malformed the exception propagates out of `parse_ics`:
no interval list is returned at all — neither the failing event's base
occurrence nor the first event's interval survives. -/
theorem claim_C3_counterexample :
    availability.parse_ics rulAlwaysFails [evPlain, evMalformed] 0 30 =
      Except.error () := rfl

/-- C3 (amended): if any event's recurrence-rule text is malformed
(`rrulestr` raises on it), the error propagates out of `parse_ics` and the
whole build aborts: `parse_ics` raises instead of returning intervals, so
neither the failing event's base occurrence nor any other event's intervals
are returned. -/
theorem claim_C3_amended (rul : String → Int → Except Unit (List Int))
    (events : List availability.RawEvent) (start_date end_date : Int)
    (ev : availability.RawEvent) (txt : String) (hev : ev ∈ events)
    (htxt : ev.rrule_text = some txt)
    (herr : rul txt ev.begin = Except.error ()) :
    availability.parse_ics rul events start_date end_date =
      Except.error () := by
  unfold availability.parse_ics
  rw [availability.parseLoop_error_of_bad_rule rul start_date end_date events
    ev txt hev htxt herr]

/-- C3, witness: the amended abort behaviour at a one-event list whose rule
text fails to parse. -/
theorem claim_C3_witness :
    availability.parse_ics rulAlwaysFails [evMalformed] 5 35 =
      Except.error () :=
  claim_C3_amended rulAlwaysFails [evMalformed] 5 35 evMalformed
    "FREQ=WEEKLY;BYDAY=XX" (List.mem_cons_self _ _) rfl rfl

/-- C4: for every busy list sorted ascending by start whose intervals all
satisfy `start ≤ end`, every instant `t` of the window `[day_start, day_end)`
is covered by a returned free interval or by a busy interval, and no such
instant is covered by both — for the `calculate_availability` of
src/availability.py and of src/availability2.py alike. -/
theorem claim_C4 (busy : List (Int × Int)) (day_start day_end : Int)
    (hsorted : SortedByStart busy) (hwf : ∀ p ∈ busy, p.1 ≤ p.2)
    (t : Int) (h1 : day_start ≤ t) (h2 : t < day_end) :
    (((∃ iv ∈ availability.calculate_availability busy day_start day_end,
        iv.1 ≤ t ∧ t < iv.2) ∨ (∃ p ∈ busy, p.1 ≤ t ∧ t < p.2)) ∧
      ¬((∃ iv ∈ availability.calculate_availability busy day_start day_end,
        iv.1 ≤ t ∧ t < iv.2) ∧ (∃ p ∈ busy, p.1 ≤ t ∧ t < p.2))) ∧
    (((∃ iv ∈ availability2.calculate_availability busy day_start day_end,
        iv.1 ≤ t ∧ t < iv.2) ∨ (∃ p ∈ busy, p.1 ≤ t ∧ t < p.2)) ∧
      ¬((∃ iv ∈ availability2.calculate_availability busy day_start day_end,
        iv.1 ≤ t ∧ t < iv.2) ∧ (∃ p ∈ busy, p.1 ≤ t ∧ t < p.2))) := by
  refine ⟨⟨availability.sweepFrom_cover busy day_start day_end t h1 h2, ?_⟩,
    availability2.sweepFrom_cover2 busy day_start day_end t h1 h2, ?_⟩
  · rintro ⟨⟨iv, hiv, ha, hb⟩, p, hp, hc, hd⟩
    rcases availability.sweepFrom_disjoint busy day_start day_end iv p
      hsorted hiv hp with h | h <;> omega
  · rintro ⟨⟨iv, hiv, ha, hb⟩, p, hp, hc, hd⟩
    rcases availability2.sweepFrom_disjoint2 busy day_start day_end iv p
      hsorted hiv hp with h | h <;> omega

/-- C4, witness: complementarity at the busy list `[(10, 11)]`, window
`[9, 18]`, instant `t = 12`. -/
theorem claim_C4_witness :
    (((∃ iv ∈ availability.calculate_availability [((10 : Int), 11)] 9 18,
        iv.1 ≤ 12 ∧ 12 < iv.2) ∨
      (∃ p ∈ [((10 : Int), (11 : Int))], p.1 ≤ 12 ∧ 12 < p.2)) ∧
      ¬((∃ iv ∈ availability.calculate_availability [((10 : Int), 11)] 9 18,
        iv.1 ≤ 12 ∧ 12 < iv.2) ∧
        (∃ p ∈ [((10 : Int), (11 : Int))], p.1 ≤ 12 ∧ 12 < p.2))) ∧
    (((∃ iv ∈ availability2.calculate_availability [((10 : Int), 11)] 9 18,
        iv.1 ≤ 12 ∧ 12 < iv.2) ∨
      (∃ p ∈ [((10 : Int), (11 : Int))], p.1 ≤ 12 ∧ 12 < p.2)) ∧
      ¬((∃ iv ∈ availability2.calculate_availability [((10 : Int), 11)] 9 18,
        iv.1 ≤ 12 ∧ 12 < iv.2) ∧
        (∃ p ∈ [((10 : Int), (11 : Int))], p.1 ≤ 12 ∧ 12 < p.2))) :=
  claim_C4 [(10, 11)] 9 18 (by simp [SortedByStart]) (by decide) 12
    (by decide) (by decide)

/-- C5: for every busy list sorted ascending by start whose intervals all
satisfy `start ≤ end`, the sequences returned by both versions of
`calculate_availability` are ascending and pairwise non-overlapping: every
adjacent pair `(a, b)` satisfies `a.end ≤ b.start`. -/
theorem claim_C5 (busy : List (Int × Int)) (day_start day_end : Int)
    (hsorted : SortedByStart busy) (hwf : ∀ p ∈ busy, p.1 ≤ p.2) :
    List.Chain' (fun a b => a.2 ≤ b.1)
      (availability.calculate_availability busy day_start day_end) ∧
    List.Chain' (fun a b => a.2 ≤ b.1)
      (availability2.calculate_availability busy day_start day_end) :=
  ⟨availability.sweepFrom_chain busy day_start day_end hwf,
   availability2.sweepFrom_chain2 busy day_start day_end hwf⟩

/-- C5, witness: non-overlap at the busy list `[(10, 11), (10, 12)]`
(overlapping busy intervals, sorted by start). -/
theorem claim_C5_witness :
    List.Chain' (fun a b => a.2 ≤ b.1)
      (availability.calculate_availability [((10 : Int), 11), (10, 12)]
        9 18) ∧
    List.Chain' (fun a b => a.2 ≤ b.1)
      (availability2.calculate_availability [((10 : Int), 11), (10, 12)]
        9 18) :=
  claim_C5 [(10, 11), (10, 12)] 9 18 (by simp [SortedByStart]) (by decide)

/-- C6: for every busy-interval list (no sortedness or well-formedness
assumed), every day and timezone, both versions of `calculate_availability`
return only non-empty intervals (`start < end`): a zero-length gap where the
cursor equals a busy start is skipped because the guard is the strict
`current_time < start`. -/
theorem claim_C6 (busy : List (Int × Int)) (day_start day_end : Int) :
    (∀ iv ∈ availability.calculate_availability busy day_start day_end,
      iv.1 < iv.2) ∧
    (∀ iv ∈ availability2.calculate_availability busy day_start day_end,
      iv.1 < iv.2) :=
  ⟨fun iv hiv =>
    availability.mem_sweepFrom_nonempty busy day_start day_end iv hiv,
   fun iv hiv =>
    availability2.mem_sweepFrom_nonempty2 busy day_start day_end iv hiv⟩

/-- C6, witness: no empty interval at the busy list `[(9, 10)]`, where the
cursor equals the busy start at the first iteration. -/
theorem claim_C6_witness :
    (∀ iv ∈ availability.calculate_availability [((9 : Int), 10)] 9 18,
      iv.1 < iv.2) ∧
    (∀ iv ∈ availability2.calculate_availability [((9 : Int), 10)] 9 18,
      iv.1 < iv.2) :=
  claim_C6 [(9, 10)] 9 18

/-- C7: whenever `parse_ics` of src/availability.py returns (no rule raised),
the result contains every event's base occurrence `(begin, end)`; for an
event with a recurrence rule whose parsed rule generates the occurrence
instants `occs`, it also contains `(o, o + duration)` for every `o ∈ occs`
with `start_date ≤ o ≤ end_date` inclusive; and when the rule regenerates
the anchor (`begin ∈ occs` in range and `end = begin + duration`) the base
interval occurs at least twice — the duplicate the spec warns about. -/
theorem claim_C7 (rul : String → Int → Except Unit (List Int))
    (events : List availability.RawEvent) (start_date end_date : Int)
    (res : List (Int × Int))
    (hok : availability.parse_ics rul events start_date end_date =
      Except.ok res)
    (ev : availability.RawEvent) (hev : ev ∈ events) :
    (ev.begin, ev.end_) ∈ res ∧
    (∀ txt occs, ev.rrule_text = some txt →
      rul txt ev.begin = Except.ok occs →
      ∀ o ∈ occs, start_date ≤ o → o ≤ end_date →
        (o, o + ev.duration) ∈ res) ∧
    (∀ txt occs, ev.rrule_text = some txt →
      rul txt ev.begin = Except.ok occs →
      ev.begin ∈ occs → start_date ≤ ev.begin → ev.begin ≤ end_date →
      ev.end_ = ev.begin + ev.duration →
      2 ≤ res.count (ev.begin, ev.end_)) := by
  unfold availability.parse_ics at hok
  cases hpl : availability.parseLoop rul start_date end_date events with
  | error e => rw [hpl] at hok; exact absurd hok (by simp)
  | ok l =>
    rw [hpl] at hok
    injection hok with hok'
    subst hok'
    obtain ⟨blk, hblk, hsub⟩ := availability.parseLoop_ok_block rul
      start_date end_date events l hpl ev hev
    have hperm := availability.sortByStart_perm l
    refine ⟨?_, ?_, ?_⟩
    · exact hperm.mem_iff.mpr (hsub.subset
        (availability.eventIntervals_base rul start_date end_date ev blk
          hblk))
    · intro txt occs htxt hoc o ho hlo hhi
      exact hperm.mem_iff.mpr (hsub.subset
        (availability.eventIntervals_occ rul start_date end_date ev blk txt
          occs hblk htxt hoc o ho hlo hhi))
    · intro txt occs htxt hoc hmem hlo hhi hend
      have hd1 := availability.eventIntervals_dup rul start_date end_date ev
        blk txt occs hblk htxt hoc hmem hlo hhi hend
      have hd2 := hsub.count_le (ev.begin, ev.end_)
      have hd3 := count_eq_of_perm hperm (ev.begin, ev.end_)
      omega

/-- C7, witness: a weekly event anchored at 0 with duration 5 over the range
`[0, 30]`, whose rule regenerates the anchor: the parsed result is
`[(0, 5), (0, 5), (7, 12)]` — base occurrence present, the week-later
occurrence `(7, 12)` present, and the base interval duplicated. -/
theorem claim_C7_witness :
    ((evWeekly.begin, evWeekly.end_) ∈
      [((0 : Int), (5 : Int)), (0, 5), (7, 12)]) ∧
    (∀ txt occs, evWeekly.rrule_text = some txt →
      rulWeekly txt evWeekly.begin = Except.ok occs →
      ∀ o ∈ occs, (0 : Int) ≤ o → o ≤ 30 →
        (o, o + evWeekly.duration) ∈
          [((0 : Int), (5 : Int)), (0, 5), (7, 12)]) ∧
    (∀ txt occs, evWeekly.rrule_text = some txt →
      rulWeekly txt evWeekly.begin = Except.ok occs →
      evWeekly.begin ∈ occs → (0 : Int) ≤ evWeekly.begin →
      evWeekly.begin ≤ 30 →
      evWeekly.end_ = evWeekly.begin + evWeekly.duration →
      2 ≤ List.count (evWeekly.begin, evWeekly.end_)
        [((0 : Int), (5 : Int)), (0, 5), (7, 12)]) :=
  claim_C7 rulWeekly [evWeekly] 0 30 [(0, 5), (0, 5), (7, 12)] rfl evWeekly
    (List.mem_cons_self _ _)

/-- C8: for every start date and count, `next_weekdays` (total, hence
terminating) returns exactly `count` dates, each a Monday-to-Friday date,
strictly increasing, and when `count > 0` the first returned date is the
earliest weekday on or after the start date. -/
theorem claim_C8 (start_date count : Nat) :
    (next_weekdays start_date count).length = count ∧
    (∀ d ∈ next_weekdays start_date count, weekday d < 5) ∧
    List.Chain' (· < ·) (next_weekdays start_date count) ∧
    (0 < count → ∃ d, (next_weekdays start_date count).head? = some d ∧
      start_date ≤ d ∧ weekday d < 5 ∧
      ∀ e, start_date ≤ e → weekday e < 5 → d ≤ e) :=
  ⟨nwAux_length start_date count,
   fun d hd => (nwAux_mem start_date count d hd).1,
   nwAux_chain start_date count,
   fun hpos => nwAux_head start_date count hpos⟩

/-- C8, witness: `next_weekdays` starting at ordinal 1 (a Monday) asked for
3 dates. -/
theorem claim_C8_witness :
    (next_weekdays 1 3).length = 3 ∧
    (∀ d ∈ next_weekdays 1 3, weekday d < 5) ∧
    List.Chain' (· < ·) (next_weekdays 1 3) ∧
    (∃ d, (next_weekdays 1 3).head? = some d ∧ 1 ≤ d ∧ weekday d < 5 ∧
      ∀ e, 1 ≤ e → weekday e < 5 → d ≤ e) := by
  have h := claim_C8 1 3
  exact ⟨h.1, h.2.1, h.2.2.1, h.2.2.2 (by decide)⟩

/-- C9, counterexample: the claim is false.  On the sorted busy list
`[(20, 21)]` with window `[9, 18]`, src/availability.py returns `[(9, 20)]`
while src/availability2.py returns `[(9, 18)]`. -/
theorem claim_C9_counterexample :
    SortedByStart [((20 : Int), 21)] ∧
    availability.calculate_availability [((20 : Int), 21)] 9 18 ≠
      availability2.calculate_availability [((20 : Int), 21)] 9 18 := by
  constructor
  · simp [SortedByStart]
  · decide

/-- C9 (amended): for every busy-interval list sorted ascending by start in
which every interval's start is strictly before `day_end`, the two versions
of `calculate_availability` return the same list of free intervals. -/
theorem claim_C9_amended (busy : List (Int × Int)) (day_start day_end : Int)
    (hsorted : SortedByStart busy) (hlt : ∀ p ∈ busy, p.1 < day_end) :
    availability.calculate_availability busy day_start day_end =
      availability2.calculate_availability busy day_start day_end :=
  sweepFrom_eq_of_starts_lt busy day_start day_end hlt

/-- C9, witness: the two versions agree on the busy list `[(10, 11)]` with
window `[9, 18]`. -/
theorem claim_C9_witness :
    availability.calculate_availability [((10 : Int), 11)] 9 18 =
      availability2.calculate_availability [((10 : Int), 11)] 9 18 :=
  claim_C9_amended [(10, 11)] 9 18 (by simp [SortedByStart]) (by decide)

/-- C10: calling `format_availability` of src/availability2.py with
`output_timezone = None` raises for every availability list (the empty one
included): `tz = pytz.timezone(output_timezone)` runs before the
`output_timezone is not None` test, and `pytz.timezone(None)` raises, so the
plain `HH:MM`-only branch is unreachable. -/
theorem claim_C10 (known : String → Bool)
    (lineTz : String → String → Int × Int → String)
    (linePlain : Int × Int → String) (avail : List (Int × Int)) :
    availability2.format_availability known lineTz linePlain avail none =
      Except.error () := rfl

example : availability.calculate_availability [] 9 18 = [(9, 18)] := by decide
example : availability.calculate_availability [(10, 11)] 9 18 =
    [(9, 10), (11, 18)] := by decide
example : availability.calculate_availability [(20, 21)] 9 18 = [(9, 20)] := by
  decide
example : availability2.calculate_availability [(20, 21)] 9 18 = [(9, 18)] := by
  decide
example : availability2.calculate_availability [(10, 12), (11, 13)] 9 18 =
    [(9, 10), (13, 18)] := by decide
example : availability2.calculate_availability [(9, 18)] 9 18 = [] := by decide

